import Mathlib

/-!
Shallow embedding of the cooperative coroutine scheduler repository:
the monotonic millisecond clock and `app::timer::Instant`
(src/lib/timer/app_timer.hpp), the fixed-slot frame pool
(`co::allocator::pool`), the timer readiness predicate
(`co::timer_pollable::poll`), and the scheduler sweep
(`co::scheduler::simple_scheduler::poll_once`) together with the
timer awaitable / `co::delay` resume protocol.

Clock readings are `Nat` millisecond counts of the `uint64_t` tick
counter; every method that calls `monotonic_clock::now()` in the C++
receives the corresponding reading as an explicit argument, one
argument per textual call site, so that the embedding is a pure
function of the clock trace.
-/

namespace CoSched

/-- Number of values of the clock representation `uint64_t`. -/
def U64 : Nat := 2 ^ 64

/-- The value `std::numeric_limits<uint64_t>::max()` used by the
wraparound branch of `Instant::elapsed`. -/
def U64_MAX : Nat := 2 ^ 64 - 1

/-- Embedding of `app::timer::Instant`: it stores one captured clock
reading `time_` (a `monotonic_clock::time_point`, i.e. a `uint64_t`
millisecond count). -/
structure Instant where
  time_ : Nat
deriving DecidableEq, Repr

namespace Instant

/-- Embedding of `Instant::elapsed` (app_timer.hpp lines 54-64): reads
`now`; when `now < time_` (wraparound) it returns
`now + (numeric_limits::max() - time_)` computed in `uint64_t`
arithmetic (hence the explicit `% U64`), otherwise `now - time_`. -/
def elapsed (i : Instant) (now : Nat) : Nat :=
  if now < i.time_ then (now + (U64_MAX - i.time_)) % U64
  else now - i.time_

/-- Embedding of `Instant::has_elapsed`: `elapsed() >= duration`. -/
def has_elapsed (i : Instant) (now d : Nat) : Bool :=
  decide (d ≤ i.elapsed now)

/-- Embedding of `Instant::mut_reset`: sets `time_` to a fresh clock
reading. -/
def mut_reset (_i : Instant) (now : Nat) : Instant :=
  ⟨now⟩

/-- Embedding of `Instant::mut_every` (app_timer.hpp lines 102-111):
calls `has_elapsed(duration)` using clock reading `n1`; if it holds,
calls `mut_reset` (a second clock reading `n2`, taken no earlier than
`n1`) and returns `true`; otherwise returns `false` and leaves the
instant unchanged.  The result pairs the returned Bool with the
post-state. -/
def mut_every (i : Instant) (d n1 n2 : Nat) : Bool × Instant :=
  if i.has_elapsed n1 d then (true, i.mut_reset n2) else (false, i)

/-- Embedding of `Instant::mut_elapsed_and_reset` (app_timer.hpp lines
125-138): recomputes the elapsed difference inline (same two branches
as `elapsed`) and returns it; the body never assigns `time_`, so the
post-state is the unchanged instant. -/
def mut_elapsed_and_reset (i : Instant) (now : Nat) : Nat × Instant :=
  (if now < i.time_ then (now + (U64_MAX - i.time_)) % U64 else now - i.time_, i)

end Instant

/-- Embedding of `co::timer_pollable::poll`: `monotonic_clock::now() >= deadline`. -/
def timer_pollable_poll (deadline now : Nat) : Bool :=
  decide (deadline ≤ now)

/-- Embedding of one `co::allocator::pool<S, N>::element`: the `S`-byte
storage `data[S]` (abstracted as a single value of type `α`) plus the
`occupied` flag. -/
structure element (α : Type) where
  data : α
  occupied : Bool
deriving DecidableEq, Repr

namespace pool

/-- The first-fit scan inside `pool::allocate` (part_000 lines 275-284):
walk the slots in index order; on the first unoccupied slot set
`occupied = true` and return its storage.  Slot storage addresses
(`e.data`) are modelled by slot indices, so the returned pointer is
the index of the chosen slot; `none` is the fall-through `nullptr`.
The result pairs the returned pointer with the updated slot array. -/
def allocScan {α : Type} : List (element α) → Option Nat × List (element α)
  | [] => (none, [])
  | e :: es =>
    if e.occupied then
      ((allocScan es).1.map (fun i => i + 1), e :: (allocScan es).2)
    else (some 0, ⟨e.data, true⟩ :: es)

/-- Embedding of `pool::allocate` (part_000 lines 271-285): returns
`nullptr` when `size > el_size` (here `el_size = S`), otherwise runs
the first-fit scan. -/
def allocate {α : Type} (S : Nat) (els : List (element α)) (size : Nat) :
    Option Nat × List (element α) :=
  if S < size then (none, els) else allocScan els

/-- Embedding of `pool::deallocate` (part_000 lines 292-304): scan the
slots comparing each slot's storage address with `ptr` (addresses are
modelled by slot indices, so `ptr` matches slot `i` exactly when
`ptr = i`); on a match set `occupied = false` and return.  Falling off
the end of the scan reaches `std::terminate()`, modelled as `none`. -/
def deallocate {α : Type} : List (element α) → Nat → Option (List (element α))
  | [], _ => none
  | e :: es, 0 => some (⟨e.data, false⟩ :: es)
  | e :: es, n + 1 => (deallocate es n).map (fun l => e :: l)

end pool

/-- A suspended `co::pollable_task` frame as queued in
`simple_scheduler::_coroutines`: `id` is the coroutine identity (the
handle's address), `deadline` the deadline of the attached
`co::timer_pollable`, and `remaining` the durations of the
`co_await co::delay(..)` statements the task body has not yet
executed. -/
structure Frame where
  id : Nat
  deadline : Nat
  remaining : List Nat
deriving DecidableEq, Repr

/-- The readiness test the sweep performs on a queue entry:
`coroutine.promise().poll()` forwards to the attached
`co::timer_pollable::poll`, i.e. `now >= deadline`. -/
def ready (now : Nat) (f : Frame) : Bool :=
  timer_pollable_poll f.deadline now

/-- Resuming a frame at clock reading `now` (part_000 lines 125-164):
the task body executes `co_await delay(d)` for each pending duration
`d` in order; `co::delay` computes `deadline = now + d`, and
`timer_awaitable::await_ready` / `await_suspend` test
`now >= deadline`, so a delay with `now + d <= now` never suspends and
the body continues; at the first delay with `now < now + d` the
awaitable stores a `timer_pollable` with that deadline in the promise,
pushes the handle back onto the global scheduler, and suspends.
`none` means the body ran to completion (the frame is destroyed). -/
def resumeFrame (now idv : Nat) : List Nat → Option Frame
  | [] => none
  | d :: rest =>
    if now + d ≤ now then resumeFrame now idv rest
    else some ⟨idv, now + d, rest⟩

/-- A frame produced by a suspension inside `resumeFrame` carries a
deadline strictly in the future, hence polls not-ready at the clock
reading of the sweep that resumed it.  (Needed to justify termination
of the sweep loop below.) -/
theorem resumeFrame_ready_false (now idv : Nat) :
    ∀ rem g, resumeFrame now idv rem = some g → ready now g = false := by
  intro rem
  induction rem with
  | nil => intro g h; simp [resumeFrame] at h
  | cons d rest ih =>
    intro g h
    rw [resumeFrame] at h
    by_cases hc : now + d ≤ now
    · rw [if_pos hc] at h
      exact ih g h
    · rw [if_neg hc] at h
      simp only [Option.some.injEq] at h
      subst h
      simp [ready, timer_pollable_poll]
      omega

/-- Embedding of the sweep loop of `simple_scheduler::poll_once`
(part_000 lines 87-98) at one fixed clock reading `now`: the iterator
walks the deque until it reaches the live `end()`; a ready entry is
resumed (which may `push_back` a new tail entry, see `resumeFrame`)
and then erased; a not-ready entry is retained and the iterator
advances.  The result is the final queue, the list of entries the
iterator visited (polled) in visit order, and the sublist of those
that were resumed. -/
def pollLoop (now : Nat) : List Frame → List Frame × List Frame × List Frame
  | [] => ([], [], [])
  | f :: rest =>
    if hr : ready now f then
      match hres : resumeFrame now f.id f.remaining with
      | some g =>
        let r := pollLoop now (rest ++ [g])
        (r.1, f :: r.2.1, f :: r.2.2)
      | none =>
        let r := pollLoop now rest
        (r.1, f :: r.2.1, f :: r.2.2)
    else
      let r := pollLoop now rest
      (f :: r.1, f :: r.2.1, r.2.2)
termination_by pending => pending.length + pending.countP (ready now)
decreasing_by
  · have hg : ready now g = false := resumeFrame_ready_false now f.id f.remaining g hres
    simp [List.countP_append, List.countP_cons, hr, hg]
    try omega
  · simp [List.countP_cons, hr]
    try omega
  · simp [List.countP_cons, hr]
    try omega

/-- Embedding of `simple_scheduler::poll_once` at clock reading `now`:
the queue contents after the sweep. -/
def poll_once (now : Nat) (queue : List Frame) : List Frame :=
  (pollLoop now queue).1

/-- The queue entries the sweep of `poll_once` visits (polls), in visit
order. -/
def pollVisited (now : Nat) (queue : List Frame) : List Frame :=
  (pollLoop now queue).2.1

/-- The queue entries the sweep of `poll_once` resumes, in resume
order. -/
def pollResumed (now : Nat) (queue : List Frame) : List Frame :=
  (pollLoop now queue).2.2

/-- The frames pushed back onto the queue tail during a sweep at clock
reading `now`: for each entry that polls ready, the new frame produced
by resuming it (when the body suspends again rather than
completing). -/
def appendees (now : Nat) (queue : List Frame) : List Frame :=
  queue.filterMap
    (fun f => if ready now f then resumeFrame now f.id f.remaining else none)

/-- State of `_coroutines` at the program point between the resumed
task's re-`push_back` (reached from `coroutine.resume()` through
`timer_awaitable::await_suspend`) and the `erase` of its old entry
(part_000 lines 92-94): `kept` is the already-swept prefix, `f` the
entry being resumed, `rest` the not-yet-swept suffix; when the resumed
body suspends again as `g`, that frame has just been pushed onto the
tail while `f` is still present. -/
def midResumeQueue (now : Nat) (kept : List Frame) (f : Frame) (rest : List Frame) :
    List Frame :=
  match resumeFrame now f.id f.remaining with
  | some g => kept ++ f :: (rest ++ [g])
  | none => kept ++ f :: rest

/-- Number of queue entries referring to the frame with identity `i`. -/
def countId (i : Nat) (q : List Frame) : Nat :=
  q.countP (fun f => f.id == i)

/-- One suspended task driven to completion by the busy-poll loop:
`TaskTrace idv D rem tEnd` holds when a frame of identity `idv`,
suspended with deadline `D` and pending delays `rem`, is resumed by
some sweep at a clock reading `t ≥ D` (the scheduler resumes a frame
only when `timer_pollable::poll` holds, i.e. `now >= deadline`), and
so on until a resume runs the body to completion at clock reading
`tEnd`. -/
inductive TaskTrace (idv : Nat) : Nat → List Nat → Nat → Prop where
  | done : ∀ t D rem, D ≤ t → resumeFrame t idv rem = none → TaskTrace idv D rem t
  | step : ∀ t D rem g tEnd, D ≤ t → resumeFrame t idv rem = some g →
      TaskTrace idv g.deadline g.remaining tEnd → TaskTrace idv D rem tEnd

/-- C7: for every Instant and clock reading within the `uint64_t`
representation, `elapsed()` returns `now - captured` when the clock
has not wrapped (`captured ≤ now()`), and `(MAX - captured) + now`
when it has (`now() < captured`), `MAX` being the maximum of the time
representation. -/
theorem elapsed_formula (i : Instant) (now : Nat)
    (hc : i.time_ < U64) (hn : now < U64) :
    (i.time_ ≤ now → i.elapsed now = now - i.time_) ∧
    (now < i.time_ → i.elapsed now = (U64_MAX - i.time_) + now) := by
  constructor
  · intro h
    rw [Instant.elapsed, if_neg (by omega)]
  · intro h
    have hmax : U64_MAX = U64 - 1 := by rw [U64_MAX, U64]
    have hb : now + (U64_MAX - i.time_) < U64 := by omega
    rw [Instant.elapsed, if_pos h, Nat.mod_eq_of_lt hb, Nat.add_comm]

/-- Witness for `elapsed_formula` at the wrapped input
`captured = 5`, `now = 3`. -/
theorem elapsed_formula_witness :
    (Instant.mk 5).time_ < U64 ∧ (3 : Nat) < U64 ∧
    ((Instant.mk 5).time_ ≤ 3 → (Instant.mk 5).elapsed 3 = 3 - (Instant.mk 5).time_) ∧
    (3 < (Instant.mk 5).time_ →
      (Instant.mk 5).elapsed 3 = (U64_MAX - (Instant.mk 5).time_) + 3) :=
  ⟨by decide, by decide, (elapsed_formula ⟨5⟩ 3 (by decide) (by decide)).1,
   (elapsed_formula ⟨5⟩ 3 (by decide) (by decide)).2⟩

/-- C6: `mut_every(d)`, with `n1` the clock reading of its
`has_elapsed` check and `n2` the reading of its `mut_reset`: when the
elapsed time since the captured instant is at least `d` it returns
true and sets the captured instant to the current clock value `n2`
(not to `captured + d`); otherwise it returns false and leaves the
captured instant unchanged. -/
theorem mut_every_spec (i : Instant) (d n1 n2 : Nat) :
    (d ≤ i.elapsed n1 → i.mut_every d n1 n2 = (true, ⟨n2⟩)) ∧
    (i.elapsed n1 < d → i.mut_every d n1 n2 = (false, i)) := by
  constructor
  · intro h
    simp [Instant.mut_every, Instant.has_elapsed, Instant.mut_reset, h]
  · intro h
    simp [Instant.mut_every, Instant.has_elapsed, Instant.mut_reset]
    omega

/-- Witness for `mut_every_spec` at `captured = 0`, `d = 5`,
check reading `7`, reset reading `8`: the trigger fires and the
captured instant becomes `8`, not `0 + 5`. -/
theorem mut_every_spec_witness :
    5 ≤ (Instant.mk 0).elapsed 7 ∧
    (Instant.mk 0).mut_every 5 7 8 = (true, ⟨8⟩) ∧
    (Instant.mk 8).time_ ≠ (Instant.mk 0).time_ + 5 :=
  ⟨by decide, (mut_every_spec ⟨0⟩ 5 7 8).1 (by decide), by decide⟩

/-- C10: `mut_elapsed_and_reset()` returns the same elapsed duration
as `elapsed()` (same wraparound formula) and, despite its name,
performs no reset: the observable state after the call equals the
state before. -/
theorem mut_elapsed_and_reset_no_reset (i : Instant) (now : Nat) :
    i.mut_elapsed_and_reset now = (i.elapsed now, i) := by
  rw [Instant.mut_elapsed_and_reset, Instant.elapsed]

/-- C8: the timer readiness predicate with a fixed deadline is
monotonic: assuming the clock readings are non-decreasing between
queries, once `poll` returns true it never returns false again, so it
transitions false to true at most once over any query sequence. -/
theorem timer_pollable_poll_monotonic (deadline n1 n2 : Nat)
    (hmono : n1 ≤ n2) (h : timer_pollable_poll deadline n1 = true) :
    timer_pollable_poll deadline n2 = true := by
  simp [timer_pollable_poll] at h ⊢
  omega

/-- Witness for `timer_pollable_poll_monotonic` at deadline `2`,
readings `3 ≤ 7`. -/
theorem timer_pollable_poll_monotonic_witness :
    (3 : Nat) ≤ 7 ∧ timer_pollable_poll 2 3 = true ∧ timer_pollable_poll 2 7 = true :=
  ⟨by decide, by decide, timer_pollable_poll_monotonic 2 3 7 (by decide) (by decide)⟩

/-- C9 counterexample: at duration `d = 0` (captured instant `0`, all
clock readings `0`) `mut_every(0)` returns true, yet immediately after
that true return `elapsed()` is `0`, which is not strictly less than
`d`. -/
theorem mut_every_window_counterexample :
    ((Instant.mk 0).mut_every 0 0 0).1 = true ∧
    ¬ (((Instant.mk 0).mut_every 0 0 0).2.elapsed 0 < 0) := by decide

/-- C9 (amended): for every positive duration `d`, with non-decreasing
and non-wrapping clock readings: any two consecutive true returns of
`mut_every(d)` are at least `d` apart on the clock (hence true is
returned at most once within any window of length `d`), and
immediately after a true return (clock unchanged since its reset)
`elapsed()` is strictly less than `d`. -/
theorem mut_every_window (i : Instant) (d n1 n2 n3 n4 : Nat)
    (hd : 0 < d)
    (h1 : (i.mut_every d n1 n2).1 = true)
    (hmono : n2 ≤ n3)
    (h2 : ((i.mut_every d n1 n2).2.mut_every d n3 n4).1 = true) :
    n2 + d ≤ n3 ∧ (i.mut_every d n1 n2).2.elapsed n2 < d := by
  have hc : i.has_elapsed n1 d = true := by
    by_contra hcc
    simp [Instant.mut_every, hcc] at h1
  have hstate : (i.mut_every d n1 n2).2 = ⟨n2⟩ := by
    simp [Instant.mut_every, hc, Instant.mut_reset]
  rw [hstate] at h2
  have h2c : (Instant.mk n2).has_elapsed n3 d = true := by
    by_contra hcc
    simp [Instant.mut_every, hcc] at h2
  have he : (Instant.mk n2).elapsed n3 = n3 - n2 := by
    show (if n3 < n2 then (n3 + (U64_MAX - n2)) % U64 else n3 - n2) = n3 - n2
    rw [if_neg (by omega)]
  simp [Instant.has_elapsed, he] at h2c
  constructor
  · omega
  · rw [hstate]
    show (if n2 < n2 then (n2 + (U64_MAX - n2)) % U64 else n2 - n2) < d
    rw [if_neg (by omega)]
    omega

/-- Witness for `mut_every_window`: captured `0`, `d = 2`, first call
at reading `5` (reset reading `5`), second call at readings `7`, `9`:
both return true, the true returns are `2` apart, and elapsed right
after the first true return is below `2`. -/
theorem mut_every_window_witness :
    0 < 2 ∧ ((Instant.mk 0).mut_every 2 5 5).1 = true ∧ (5 : Nat) ≤ 7 ∧
    (((Instant.mk 0).mut_every 2 5 5).2.mut_every 2 7 9).1 = true ∧
    (5 + 2 ≤ 7 ∧ ((Instant.mk 0).mut_every 2 5 5).2.elapsed 5 < 2) :=
  ⟨by decide, by decide, by decide, by decide,
   mut_every_window ⟨0⟩ 2 5 5 7 9 (by decide) (by decide) (by decide) (by decide)⟩

/-- Setting a list entry to its current value is the identity. -/
theorem list_set_get_self {α : Type} (l : List α) (i : Nat) (hi : i < l.length) :
    l.set i (l.get ⟨i, hi⟩) = l := by
  apply List.ext_getElem
  · simp
  · intro n h1 h2
    rw [List.getElem_set]
    split
    · rename_i heq
      subst heq
      rfl
    · rfl

/-- When every slot is occupied the first-fit scan falls through and
leaves the slots unchanged. -/
theorem pool.allocScan_all_occupied {α : Type} :
    ∀ els : List (element α), (∀ e ∈ els, e.occupied = true) →
      pool.allocScan els = (none, els) := by
  intro els
  induction els with
  | nil => intro h; rfl
  | cons e es ih =>
    intro h
    have he : e.occupied = true := h e (by simp)
    rw [pool.allocScan, if_pos he, ih (fun x hx => h x (by simp [hx]))]
    rfl

/-- The first-fit scan picks exactly the lowest-indexed unoccupied
slot, marks it occupied (keeping its stored bytes) and returns its
storage. -/
theorem pool.allocScan_first_free {α : Type} :
    ∀ (els : List (element α)) (i : Nat) (hi : i < els.length),
      (els.get ⟨i, hi⟩).occupied = false →
      (∀ j (hj : j < els.length), j < i → (els.get ⟨j, hj⟩).occupied = true) →
      pool.allocScan els = (some i, els.set i ⟨(els.get ⟨i, hi⟩).data, true⟩) := by
  intro els
  induction els with
  | nil => intro i hi; simp at hi
  | cons e es ih =>
    intro i hi hfree hbefore
    cases i with
    | zero =>
      have he : e.occupied = false := hfree
      rw [pool.allocScan, if_neg (by simp [he])]
      rfl
    | succ k =>
      have he : e.occupied = true := hbefore 0 (by simp) (by omega)
      rw [pool.allocScan, if_pos he,
        ih k (by simpa using hi) hfree
          (fun j hj hjk => hbefore (j + 1) (by simpa using hj) (by omega))]
      rfl

/-- When some slot is unoccupied the first-fit scan succeeds. -/
theorem pool.allocScan_exists_free {α : Type} :
    ∀ els : List (element α), (∃ e ∈ els, e.occupied = false) →
      (pool.allocScan els).1.isSome = true := by
  intro els
  induction els with
  | nil => intro h; simp at h
  | cons e es ih =>
    intro h
    by_cases he : e.occupied = true
    · have hes : ∃ x ∈ es, x.occupied = false := by
        rcases h with ⟨x, hx, hxo⟩
        rcases List.mem_cons.mp hx with h1 | h2
        · rw [h1, he] at hxo
          cases hxo
        · exact ⟨x, h2, hxo⟩
      have hsome := ih hes
      rw [pool.allocScan, if_pos he]
      cases hsc : (pool.allocScan es).1 with
      | none => rw [hsc] at hsome; simp at hsome
      | some k => simp [hsc]
    · rw [pool.allocScan, if_neg (by simpa using he)]
      rfl

/-- The deallocation scan with a pointer matching slot `p` marks that
slot free, keeps its stored bytes and every other slot unchanged. -/
theorem pool.deallocate_in_range {α : Type} :
    ∀ (els : List (element α)) (p : Nat) (hp : p < els.length),
      pool.deallocate els p = some (els.set p ⟨(els.get ⟨p, hp⟩).data, false⟩) := by
  intro els
  induction els with
  | nil => intro p hp; simp at hp
  | cons e es ih =>
    intro p hp
    cases p with
    | zero => rfl
    | succ k =>
      rw [pool.deallocate, ih k (by simpa using hp)]
      rfl

/-- The deallocation scan with a pointer matching no slot falls
through to `std::terminate()`. -/
theorem pool.deallocate_out_of_range {α : Type} :
    ∀ (els : List (element α)) (p : Nat), els.length ≤ p →
      pool.deallocate els p = none := by
  intro els
  induction els with
  | nil => intro p hp; rfl
  | cons e es ih =>
    intro p hp
    cases p with
    | zero => simp at hp
    | succ k =>
      rw [pool.deallocate, ih k (by simpa using hp)]
      rfl

/-- C5: `deallocate(ptr)` where `ptr` is the storage address of slot
`p` (addresses modelled by slot indices) marks exactly that slot free
and leaves its stored bytes and every other slot's occupancy and
contents unchanged; `deallocate(ptr)` for a `ptr` matching no slot
falls through the scan to `std::terminate()` (modelled as `none`)
instead of returning. -/
theorem deallocate_spec {α : Type} (els : List (element α)) (p : Nat) :
    (∀ hp : p < els.length,
      pool.deallocate els p = some (els.set p ⟨(els.get ⟨p, hp⟩).data, false⟩)) ∧
    (els.length ≤ p → pool.deallocate els p = none) :=
  ⟨fun hp => pool.deallocate_in_range els p hp,
   fun hp => pool.deallocate_out_of_range els p hp⟩

/-- Witness for `deallocate_spec`: slots `[(10, occupied), (20,
occupied)]`; freeing slot `1` frees exactly it; pointer `5` matches no
slot and terminates. -/
theorem deallocate_spec_witness :
    (1 : Nat) < ([⟨10, true⟩, ⟨20, true⟩] : List (element Nat)).length ∧
    pool.deallocate ([⟨10, true⟩, ⟨20, true⟩] : List (element Nat)) 1 =
      some [⟨10, true⟩, ⟨20, false⟩] ∧
    (([⟨10, true⟩, ⟨20, true⟩] : List (element Nat)).length ≤ 5 ∧
      pool.deallocate ([⟨10, true⟩, ⟨20, true⟩] : List (element Nat)) 5 = none) :=
  ⟨by decide,
   by

     rw [(deallocate_spec ([⟨10, true⟩, ⟨20, true⟩] : List (element Nat)) 1).1 (by decide)]
     rfl,
   by decide,
   (deallocate_spec ([⟨10, true⟩, ⟨20, true⟩] : List (element Nat)) 5).2 (by decide)⟩

/-- C4: `allocate(size)` on a pool with slot size `S`: it returns null
when `size > S`; otherwise, when at least one slot is unoccupied, it
marks the lowest-indexed unoccupied slot occupied and returns that
slot's storage (first-fit), and when every slot is occupied it returns
null (hence after `N` successful allocations a further allocate
returns null); after a successful `deallocate` a subsequent allocate
of `size ≤ S` succeeds, and when the pool was full beforehand it
reuses exactly the deallocated slot. -/
theorem allocate_spec {α : Type} (S : Nat) (els : List (element α)) (size : Nat) :
    (S < size → pool.allocate S els size = (none, els)) ∧
    ((∀ e ∈ els, e.occupied = true) → pool.allocate S els size = (none, els)) ∧
    (size ≤ S → ∀ i (hi : i < els.length),
      (els.get ⟨i, hi⟩).occupied = false →
      (∀ j (hj : j < els.length), j < i → (els.get ⟨j, hj⟩).occupied = true) →
      pool.allocate S els size = (some i, els.set i ⟨(els.get ⟨i, hi⟩).data, true⟩)) ∧
    (size ≤ S → ∀ p els2, pool.deallocate els p = some els2 →
      (pool.allocate S els2 size).1.isSome = true) ∧
    (size ≤ S → (∀ e ∈ els, e.occupied = true) →
      ∀ p els2, pool.deallocate els p = some els2 →
      pool.allocate S els2 size = (some p, els)) := by
  refine ⟨?_, ?_, ?_, ?_, ?_⟩
  · intro h
    rw [pool.allocate, if_pos h]
  · intro h
    by_cases hs : S < size
    · rw [pool.allocate, if_pos hs]
    · rw [pool.allocate, if_neg hs, pool.allocScan_all_occupied els h]
  · intro hs i hi hfree hbefore
    rw [pool.allocate, if_neg (by omega), pool.allocScan_first_free els i hi hfree hbefore]
  · intro hs p els2 hde
    by_cases hp : p < els.length
    · rw [pool.deallocate_in_range els p hp] at hde
      injection hde with hde2
      subst hde2
      rw [pool.allocate, if_neg (by omega)]
      apply pool.allocScan_exists_free
      have hlen2 : p < (els.set p ⟨(els.get ⟨p, hp⟩).data, false⟩).length := by
        simpa using hp
      refine ⟨(els.set p ⟨(els.get ⟨p, hp⟩).data, false⟩).get ⟨p, hlen2⟩,
        List.get_mem _ _ _, ?_⟩
      rw [List.get_set_eq (by simpa using hp)]
    · rw [pool.deallocate_out_of_range els p (by omega)] at hde
      cases hde
  · intro hs hocc p els2 hde
    by_cases hp : p < els.length
    · rw [pool.deallocate_in_range els p hp] at hde
      injection hde with hde2
      subst hde2
      have hlen : p < (els.set p ⟨(els.get ⟨p, hp⟩).data, false⟩).length := by
        simpa using hp
      rw [pool.allocate, if_neg (by omega),
        pool.allocScan_first_free _ p hlen (by rw [List.get_set_eq (by simpa using hp)])
          (fun j hj hjp => by
            rw [List.get_set_ne (by omega) hj]
            exact hocc _ (List.get_mem els j (by simpa using hj)))]
      rw [List.get_set_eq (by simpa using hp), List.set_set]
      have heq : (⟨(els.get ⟨p, hp⟩).data, true⟩ : element α) = els.get ⟨p, hp⟩ := by
        have ho : (els.get ⟨p, hp⟩).occupied = true := hocc _ (List.get_mem els p hp)
        cases hgot : els.get ⟨p, hp⟩ with
        | mk d o =>
          rw [hgot] at ho
          simp at ho
          simp [ho, hgot]
      rw [heq, list_set_get_self]
    · rw [pool.deallocate_out_of_range els p (by omega)] at hde
      cases hde

/-- Witness for `allocate_spec`: pool slot size `4`, slots `[(10,
occupied), (20, free), (30, free)]`, request size `3`: first-fit takes
slot `1`. -/
theorem allocate_spec_witness :
    (3 : Nat) ≤ 4 ∧
    (([⟨10, true⟩, ⟨20, false⟩, ⟨30, false⟩] : List (element Nat)).get
      ⟨1, by decide⟩).occupied = false ∧
    pool.allocate 4 ([⟨10, true⟩, ⟨20, false⟩, ⟨30, false⟩] : List (element Nat)) 3 =
      (some 1, [⟨10, true⟩, ⟨20, true⟩, ⟨30, false⟩]) :=
  ⟨by decide, by decide,
   by
     rw [(allocate_spec 4 ([⟨10, true⟩, ⟨20, false⟩, ⟨30, false⟩] : List (element Nat))
        3).2.2.1 (by decide) 1 (by decide) (by decide)
        (fun j hj hj1 => by
          have hj0 : j = 0 := by omega
          subst hj0
          rfl)]
     rfl⟩

theorem pollLoop_eq (now : Nat) (P : List Frame) :
    pollLoop now P =
      (P.filter (fun f => ! ready now f) ++ appendees now P,
       P ++ appendees now P,
       P.filter (ready now)) := by
  induction P using pollLoop.induct now with
  | case1 => simp [pollLoop, appendees]
  | case2 f rest hr g hres ih =>
    have hg : ready now g = false := resumeFrame_ready_false now f.id f.remaining g hres
    simp only [pollLoop, hr, dite_true]
    split
    · rename_i g2 heq
      rw [hres] at heq
      injection heq with h2
      subst h2
      rw [ih]
      simp [appendees, List.filterMap_cons, List.filterMap_append, List.filter_cons,
        List.filter_append, hr, hres, hg]
    · rename_i heq
      rw [hres] at heq
      cases heq
  | case3 f rest hr hres ih =>
    simp only [pollLoop, hr, dite_true]
    split
    · rename_i g2 heq
      rw [hres] at heq
      cases heq
    · rw [ih]
      simp [appendees, List.filterMap_cons, List.filter_cons, hr, hres]
  | case4 f rest hr ih =>
    simp only [pollLoop]
    rw [dif_neg hr]
    rw [ih]
    simp [appendees, List.filterMap_cons, List.filter_cons, hr]


theorem resumeFrame_id (now idv : Nat) :
    ∀ rem g, resumeFrame now idv rem = some g → g.id = idv := by
  intro rem
  induction rem with
  | nil => intro g h; simp [resumeFrame] at h
  | cons d rest ih =>
    intro g h
    rw [resumeFrame] at h
    by_cases hc : now + d ≤ now
    · rw [if_pos hc] at h
      exact ih g h
    · rw [if_neg hc] at h
      injection h with h2
      subst h2
      rfl

theorem appendees_ids_sublist (now : Nat) :
    ∀ q : List Frame,
      ((appendees now q).map Frame.id).Sublist ((q.filter (ready now)).map Frame.id) := by
  intro q
  induction q with
  | nil => simp [appendees]
  | cons f rest ih =>
    by_cases hr : ready now f = true
    · cases hres : resumeFrame now f.id f.remaining with
      | none =>
        simp only [appendees, List.filterMap_cons, if_pos hr, hres, List.filter_cons, hr,
          if_true, List.map_cons]
        exact List.Sublist.cons _ ih
      | some g =>
        have hid : g.id = f.id := resumeFrame_id now f.id f.remaining g hres
        simp only [appendees, List.filterMap_cons, if_pos hr, hres, List.filter_cons, hr,
          if_true, List.map_cons]
        rw [hid]
        exact List.Sublist.cons₂ _ ih
    · simp only [appendees, List.filterMap_cons, if_neg hr, List.filter_cons]
      simpa using ih

theorem ids_nodup_poll_once (now : Nat) (q : List Frame)
    (h : (q.map Frame.id).Nodup) : ((poll_once now q).map Frame.id).Nodup := by
  rw [poll_once, pollLoop_eq]
  rw [List.map_append]
  have hperm := List.filter_append_perm (ready now) q
  have hkey : (((q.filter (ready now)) ++ (q.filter (fun f => ! ready now f))).map Frame.id).Nodup :=
    ((hperm.map Frame.id).nodup_iff).mpr h
  rw [List.map_append] at hkey
  rcases List.nodup_append.mp hkey with ⟨hA, hB, hdisj⟩
  apply List.nodup_append.mpr
  refine ⟨hB, (appendees_ids_sublist now q).nodup hA, ?_⟩
  intro a ha ha2
  exact hdisj ((appendees_ids_sublist now q).subset ha2) ha



theorem resumeFrame_none_sum (now idv : Nat) :
    ∀ rem, resumeFrame now idv rem = none → rem.sum = 0 := by
  intro rem
  induction rem with
  | nil => intro h; rfl
  | cons d rest ih =>
    intro h
    rw [resumeFrame] at h
    by_cases hc : now + d ≤ now
    · rw [if_pos hc] at h
      have hd : d = 0 := by omega
      simp [hd, ih h]
    · rw [if_neg hc] at h
      cases h

theorem resumeFrame_some_sum (now idv : Nat) :
    ∀ rem g, resumeFrame now idv rem = some g →
      g.deadline + g.remaining.sum = now + rem.sum := by
  intro rem
  induction rem with
  | nil => intro g h; simp [resumeFrame] at h
  | cons d rest ih =>
    intro g h
    rw [resumeFrame] at h
    by_cases hc : now + d ≤ now
    · rw [if_pos hc] at h
      have hd : d = 0 := by omega
      have := ih g h
      simp [hd]
      omega
    · rw [if_neg hc] at h
      injection h with h2
      subst h2
      simp
      omega

theorem taskTrace_ge (idv : Nat) :
    ∀ D rem tEnd, TaskTrace idv D rem tEnd → D + rem.sum ≤ tEnd := by
  intro D rem tEnd h
  induction h with
  | done t D2 rem2 hle hnone =>
    have := resumeFrame_none_sum t idv rem2 hnone
    omega
  | step t D2 rem2 g tEnd2 hle hsome htr ih =>
    have hsum := resumeFrame_some_sum t idv rem2 g hsome
    omega

/-- C1 counterexample: queue `[{id 0, deadline 0, remaining [5]}]`
swept at clock reading `0`: the ready entry is resumed and re-pushes
itself with deadline `5`; the sweep then also visits (polls) that
re-queued tail entry within the same `poll_once` call, so it visits
two entries while only one was present when the sweep started. -/
theorem poll_once_snapshot_counterexample :
    pollVisited 0 [⟨0, 0, [5]⟩] = [⟨0, 0, [5]⟩, ⟨0, 5, []⟩] ∧
    (pollVisited 0 [⟨0, 0, [5]⟩]).length ≠ ([⟨0, 0, [5]⟩] : List Frame).length := by
  have h := pollLoop_eq 0 [⟨0, 0, [5]⟩]
  constructor
  · rw [pollVisited, h]
    decide
  · rw [pollVisited, h]
    decide

/-- C1 (amended): the sweep of `poll_once` runs until the iterator
reaches the live end of the queue, so it visits the entries present at
the start followed by the frames re-queued during the sweep; at the
sweep's clock reading those appended frames are never ready, so they
are polled but not resumed within the same call: the resumed entries
are exactly the initially-present ready entries, and the final queue
is the not-ready initial entries in order followed by the appended
frames. -/
theorem poll_once_sweep (now : Nat) (q : List Frame) :
    pollVisited now q = q ++ appendees now q ∧
    pollResumed now q = q.filter (ready now) ∧
    poll_once now q = q.filter (fun f => ! ready now f) ++ appendees now q ∧
    ∀ g ∈ appendees now q, ready now g = false := by
  refine ⟨?_, ?_, ?_, ?_⟩
  · rw [pollVisited, pollLoop_eq]
  · rw [pollResumed, pollLoop_eq]
  · rw [poll_once, pollLoop_eq]
  · intro g hg
    rw [appendees] at hg
    rcases List.mem_filterMap.mp hg with ⟨f, hf, hsome⟩
    by_cases hr : ready now f = true
    · rw [if_pos hr] at hsome
      exact resumeFrame_ready_false now f.id f.remaining g hsome
    · rw [if_neg hr] at hsome
      cases hsome

/-- Witness for `poll_once_sweep` on the queue `[{id 0, deadline 0,
remaining [5]}, {id 1, deadline 7, remaining []}]` at clock `0`. -/
theorem poll_once_sweep_witness :
    pollVisited 0 [⟨0, 0, [5]⟩, ⟨1, 7, []⟩] = [⟨0, 0, [5]⟩, ⟨1, 7, []⟩, ⟨0, 5, []⟩] ∧
    pollResumed 0 [⟨0, 0, [5]⟩, ⟨1, 7, []⟩] = [⟨0, 0, [5]⟩] ∧
    poll_once 0 [⟨0, 0, [5]⟩, ⟨1, 7, []⟩] = [⟨1, 7, []⟩, ⟨0, 5, []⟩] := by
  have h := poll_once_sweep 0 [⟨0, 0, [5]⟩, ⟨1, 7, []⟩]
  refine ⟨?_, ?_, ?_⟩
  · rw [h.1]
    decide
  · rw [h.2.1]
    decide
  · rw [h.2.2.1]
    decide

/-- C2: a task that sequentially awaits the delays `ds`, reaching its
first await at clock reading `t0` (each delay's deadline computed as
clock-now plus the duration at the moment of the await) and driven by
sweeps that resume a frame only once clock-now has reached its
deadline, completes at a clock reading `tEnd` with
`tEnd - t0 ≥ sum ds`; a task whose delays let it complete already
during the first await has `sum ds = 0`. -/
theorem delay_sum_lower_bound (idv t0 tEnd : Nat) (ds : List Nat) :
    (resumeFrame t0 idv ds = none → t0 + ds.sum ≤ t0) ∧
    (∀ g, resumeFrame t0 idv ds = some g →
      TaskTrace idv g.deadline g.remaining tEnd → t0 + ds.sum ≤ tEnd) := by
  constructor
  · intro h
    have := resumeFrame_none_sum t0 idv ds h
    omega
  · intro g hstart htrace
    have h1 := taskTrace_ge idv g.deadline g.remaining tEnd htrace
    have h2 := resumeFrame_some_sum t0 idv ds g hstart
    omega

/-- Witness for `delay_sum_lower_bound`: task `0` awaits delays
`[2, 3]` starting at clock `0`, is resumed at clock `2` and completes
at clock `5`, and indeed `5 ≥ 0 + (2 + 3)`. -/
theorem delay_sum_lower_bound_witness :
    resumeFrame 0 0 [2, 3] = some ⟨0, 2, [3]⟩ ∧
    TaskTrace 0 2 [3] 5 ∧
    0 + ([2, 3] : List Nat).sum ≤ 5 := by
  have htr : TaskTrace 0 2 [3] 5 :=
    TaskTrace.step 2 2 [3] ⟨0, 5, []⟩ 5 (by decide) (by decide)
      (TaskTrace.done 5 5 [] (by decide) (by decide))
  exact ⟨by decide, htr,
    (delay_sum_lower_bound 0 0 5 [2, 3]).2 ⟨0, 2, [3]⟩ (by decide) htr⟩

/-- C3 counterexample: queue `[{id 0, deadline 0, remaining [5]}]`
swept at clock `0`: while the ready frame is being resumed, after its
re-`push_back` and before the `erase` of its old entry, the queue
holds two entries referring to frame `0`, so the at-most-once property
does not hold at that moment. -/
theorem queue_once_counterexample :
    ready 0 ⟨0, 0, [5]⟩ = true ∧
    midResumeQueue 0 [] ⟨0, 0, [5]⟩ [] = [⟨0, 0, [5]⟩, ⟨0, 5, []⟩] ∧
    countId 0 (midResumeQueue 0 [] ⟨0, 0, [5]⟩ []) = 2 ∧
    ¬ (countId 0 (midResumeQueue 0 [] ⟨0, 0, [5]⟩ []) ≤ 1) := by decide

/-- C3 (amended): each frame reference appears in the scheduler queue
at most once at the start and end of every `poll_once` sweep (a queue
with pairwise-distinct frame identities keeps them pairwise distinct
across a sweep); transiently, while a ready frame is being resumed,
between its re-`push_back` and the erase of its old entry, that
frame's identity appears exactly twice in the queue. -/
theorem queue_at_most_once (now : Nat) (q kept rest : List Frame) (f g : Frame)
    (h : (q.map Frame.id).Nodup)
    (h2 : ((kept ++ f :: rest).map Frame.id).Nodup)
    (hr : ready now f = true)
    (hres : resumeFrame now f.id f.remaining = some g) :
    ((poll_once now q).map Frame.id).Nodup ∧
    countId f.id (midResumeQueue now kept f rest) = 2 := by
  refine ⟨ids_nodup_poll_once now q h, ?_⟩
  have hid : g.id = f.id := resumeFrame_id now f.id f.remaining g hres
  rw [midResumeQueue, hres]
  rw [List.map_append, List.map_cons] at h2
  rcases List.nodup_append.mp h2 with ⟨hk, hfr, hdisj⟩
  have hnk : ∀ x ∈ kept, (x.id == f.id) = false := by
    intro x hx
    have hne := hdisj (List.mem_map_of_mem Frame.id hx)
    simp only [beq_eq_false_iff_ne, ne_eq]
    intro hxe
    exact hne (by rw [hxe]; exact List.mem_cons_self _ _)
  have hnr : ∀ x ∈ rest, (x.id == f.id) = false := by
    intro x hx
    rcases List.nodup_cons.mp hfr with ⟨hfnot, hrest⟩
    simp only [beq_eq_false_iff_ne, ne_eq]
    intro hxe
    exact hfnot (by rw [← hxe]; exact List.mem_map_of_mem Frame.id hx)
  rw [countId, List.countP_append, List.countP_cons, List.countP_append]
  have hck : kept.countP (fun x => x.id == f.id) = 0 :=
    List.countP_eq_zero.mpr (by intro x hx; simp [hnk x hx])
  have hcr : rest.countP (fun x => x.id == f.id) = 0 :=
    List.countP_eq_zero.mpr (by intro x hx; simp [hnr x hx])
  simp [hck, hcr, hid]

/-- Witness for `queue_at_most_once`: queue `[frame 0, frame 1]` with
distinct identities; mid-resume position with swept prefix
`[frame 1]`, resumed entry frame `0` (ready, re-suspending with
deadline `5`) and unswept suffix `[frame 2]`. -/
theorem queue_at_most_once_witness :
    (([⟨0, 0, [5]⟩, ⟨1, 7, []⟩] : List Frame).map Frame.id).Nodup ∧
    ((([⟨1, 7, []⟩] : List Frame) ++ (⟨0, 0, [5]⟩ : Frame) :: [⟨2, 9, []⟩]).map
      Frame.id).Nodup ∧
    ready 0 ⟨0, 0, [5]⟩ = true ∧
    resumeFrame 0 (Frame.id ⟨0, 0, [5]⟩) (Frame.remaining ⟨0, 0, [5]⟩) =
      some ⟨0, 5, []⟩ ∧
    (((poll_once 0 [⟨0, 0, [5]⟩, ⟨1, 7, []⟩]).map Frame.id).Nodup ∧
      countId (Frame.id ⟨0, 0, [5]⟩)
        (midResumeQueue 0 [⟨1, 7, []⟩] ⟨0, 0, [5]⟩ [⟨2, 9, []⟩]) = 2) :=
  ⟨by decide, by decide, by decide, by decide,
   queue_at_most_once 0 [⟨0, 0, [5]⟩, ⟨1, 7, []⟩] [⟨1, 7, []⟩] [⟨2, 9, []⟩]
     ⟨0, 0, [5]⟩ ⟨0, 5, []⟩ (by decide) (by decide) (by decide) (by decide)⟩


end CoSched
